import Mathlib

/-!
Verification of the SVG path-data parser specified for this repository.
The repository's `src/packages/rust-core/src/kurbo.rs` only contains the
harness `main`, which drives `svgtypes::PathParser` over a hard-coded path
string; the parser itself (lexer, number scanner and per-command state
machine) is not part of the sources, so it is modelled here from the
specification (sections 3, 4, 6 and 7 of the spec).  All inputs of interest
are ASCII, so character offsets coincide with byte offsets.
-/

namespace SvgPath

/-- Modelled from the spec: whitespace characters recognised by
`skip_separators`. -/
def isWsp (c : Char) : Bool :=
  c == ' ' || c == '\t' || c == '\n' || c == '\r'

/-- Characters that may start a numeric argument (sign, dot or digit);
used to decide implicit repetition versus `UnexpectedCharacter`. -/
def isNumberStart (c : Char) : Bool :=
  c.isDigit || c == '+' || c == '-' || c == '.'

/-- The nine-plus-close command kinds of the data model ("Segment" variants). -/
inductive Cmd where
  | MoveTo
  | LineTo
  | HorizontalLineTo
  | VerticalLineTo
  | CurveTo
  | SmoothCurveTo
  | QuadTo
  | SmoothQuadTo
  | ArcTo
  | ClosePath
deriving DecidableEq, Repr

/-- Modelled from the spec: required argument arity per command
(Move/Line: 2; Horizontal/Vertical: 1; Cubic: 6; Smooth-cubic: 4;
Quadratic: 4; Smooth-quadratic: 2; Arc: 7; Close: 0). -/
def arity : Cmd → Nat
  | .MoveTo => 2
  | .LineTo => 2
  | .HorizontalLineTo => 1
  | .VerticalLineTo => 1
  | .CurveTo => 6
  | .SmoothCurveTo => 4
  | .QuadTo => 4
  | .SmoothQuadTo => 2
  | .ArcTo => 7
  | .ClosePath => 0

/-- Error kinds of the error surface. -/
inductive ErrKind where
  | UnexpectedCharacter
  | MalformedNumber
  | InvalidFlag
  | WrongArgumentCount
  | UnexpectedEndOfInput
deriving DecidableEq, Repr

/-- A parse error: a kind together with the byte offset at which it occurred. -/
structure PErr where
  kind : ErrKind
  offset : Nat
deriving DecidableEq, Repr

/-- An emitted path segment: command kind, relative flag, and its numeric
argument group.  `ClosePath` carries `rel = false` (Z/z carry no relativity). -/
structure Segment where
  cmd : Cmd
  rel : Bool
  args : List ℚ
deriving DecidableEq, Repr

/-- Modelled from the spec: `read_command_letter`'s table — command letters
`M,L,H,V,C,S,Q,T,A,Z`, case-insensitive; lowercase means relative. -/
def cmdOfChar : Char → Option (Cmd × Bool)
  | 'M' => some (.MoveTo, false)
  | 'm' => some (.MoveTo, true)
  | 'L' => some (.LineTo, false)
  | 'l' => some (.LineTo, true)
  | 'H' => some (.HorizontalLineTo, false)
  | 'h' => some (.HorizontalLineTo, true)
  | 'V' => some (.VerticalLineTo, false)
  | 'v' => some (.VerticalLineTo, true)
  | 'C' => some (.CurveTo, false)
  | 'c' => some (.CurveTo, true)
  | 'S' => some (.SmoothCurveTo, false)
  | 's' => some (.SmoothCurveTo, true)
  | 'Q' => some (.QuadTo, false)
  | 'q' => some (.QuadTo, true)
  | 'T' => some (.SmoothQuadTo, false)
  | 't' => some (.SmoothQuadTo, true)
  | 'A' => some (.ArcTo, false)
  | 'a' => some (.ArcTo, true)
  | 'Z' => some (.ClosePath, false)
  | 'z' => some (.ClosePath, false)
  | _ => none

/-- Consume a run of whitespace, advancing the offset. -/
def skipWsp : List Char → Nat → List Char × Nat
  | c :: cs, off => if isWsp c then skipWsp cs (off + 1) else (c :: cs, off)
  | [], off => ([], off)

/-- Modelled from the spec: `skip_separators` consumes whitespace and at most
one comma; commas are optional separators. -/
def skipSeparators (cs : List Char) (off : Nat) : List Char × Nat :=
  match skipWsp cs off with
  | (c :: rest, o) => if c = ',' then skipWsp rest (o + 1) else (c :: rest, o)
  | ([], o) => ([], o)

/-- Consume a maximal run of decimal digits. -/
def takeDigits : List Char → Nat → List Char × List Char × Nat
  | c :: cs, off =>
    if c.isDigit then
      let (ds, rest, o) := takeDigits cs (off + 1)
      (c :: ds, rest, o)
    else ([], c :: cs, off)
  | [], off => ([], [], off)

/-- Numeric value of a digit run. -/
def digitsVal (ds : List Char) : Nat :=
  ds.foldl (fun a c => a * 10 + (c.toNat - 48)) 0

/-- The rational with the given sign, numerator and denominator; kept in
`mkRat` form so concrete parses evaluate inside the kernel. -/
def ratOfParts (neg : Bool) (n d : Nat) : ℚ :=
  mkRat (if neg then -(n : Int) else (n : Int)) d

/-- Modelled from the spec: the digits / optional fractional part / optional
exponent portion of `read_number`, after the optional sign has been read.
`off` is the start offset of the number (for error reporting), `o1` the
offset after the sign.  Fails with `MalformedNumber` if no digit is
consumed. -/
def scanMantissa (neg : Bool) (cs1 : List Char) (off o1 : Nat) :
    Except PErr (ℚ × List Char × Nat) :=
  let (ip, cs2, o2) := takeDigits cs1 o1
  let (fp, cs3, o3) :=
    match cs2 with
    | c :: r => if c = '.' then takeDigits r (o2 + 1) else ([], c :: r, o2)
    | [] => ([], [], o2)
  if ip.isEmpty && fp.isEmpty then
    .error ⟨.MalformedNumber, off⟩
  else
    let mnum : Nat := digitsVal ip * 10 ^ fp.length + digitsVal fp
    let mden : Nat := 10 ^ fp.length
    match cs3 with
    | c1 :: r =>
      if c1 == 'e' || c1 == 'E' then
        let (eneg, r1, oe) :=
          match r with
          | c2 :: r2 =>
            if c2 = '+' then (false, r2, o3 + 2)
            else if c2 = '-' then (true, r2, o3 + 2)
            else (false, c2 :: r2, o3 + 1)
          | [] => (false, [], o3 + 1)
        match takeDigits r1 oe with
        | ([], _, _) => .ok (ratOfParts neg mnum mden, c1 :: r, o3)
        | (eds, r2, o4) =>
          let ev := digitsVal eds
          if eneg then .ok (ratOfParts neg mnum (mden * 10 ^ ev), r2, o4)
          else .ok (ratOfParts neg (mnum * 10 ^ ev) mden, r2, o4)
      else .ok (ratOfParts neg mnum mden, c1 :: r, o3)
    | [] => .ok (ratOfParts neg mnum mden, [], o3)

/-- Modelled from the spec: `read_number` consumes an optional sign, digits,
an optional fractional part and an optional exponent, per the permissive SVG
grammar where digits may be immediately adjacent to the next token
(`1.5.5` splits into `1.5` and `.5`).  Fails with `MalformedNumber` if no
digit is consumed. -/
def readNumber (cs : List Char) (off : Nat) : Except PErr (ℚ × List Char × Nat) :=
  match cs with
  | c :: r =>
    if c = '+' then scanMantissa false r off (off + 1)
    else if c = '-' then scanMantissa true r off (off + 1)
    else scanMantissa false (c :: r) off off
  | [] => scanMantissa false [] off off

/-- Modelled from the spec: `read_flag` consumes exactly one character that
must be `0` or `1`; fails with `InvalidFlag` otherwise. -/
def readFlag (cs : List Char) (off : Nat) : Except PErr (ℚ × List Char × Nat) :=
  match cs with
  | c :: r =>
    if c = '0' then .ok (0, r, off + 1)
    else if c = '1' then .ok (1, r, off + 1)
    else .error ⟨.InvalidFlag, off⟩
  | [] => .error ⟨.InvalidFlag, off⟩

/-- The 4th and 5th arc arguments (indices 3 and 4) are the large-arc and
sweep flags, read with `readFlag` instead of `readNumber`. -/
def isFlagSlot (cmd : Cmd) (idx : Nat) : Bool :=
  match cmd with
  | .ArcTo => idx == 3 || idx == 4
  | _ => false

/-- Modelled from the spec: fill the argument buffer for the active command,
reading `need` more numbers (or flags, for the two arc-flag slots), each
preceded by optional separators.  Fails with `UnexpectedEndOfInput` if the
input ends mid-group; no partial buffer is ever returned. -/
def fillArgs (cmd : Cmd) (acc : List ℚ) :
    Nat → List Char → Nat → Except PErr (List ℚ × List Char × Nat)
  | 0, cs, off => .ok (acc, cs, off)
  | need + 1, cs, off =>
    let (cs1, o1) := skipSeparators cs off
    match cs1 with
    | [] => .error ⟨.UnexpectedEndOfInput, o1⟩
    | c :: r =>
      match (if isFlagSlot cmd acc.length then readFlag (c :: r) o1
             else readNumber (c :: r) o1) with
      | .error e => .error e
      | .ok (v, cs2, o2) => fillArgs cmd (acc ++ [v]) need cs2 o2

/-- Parser states of the state machine.  `start` is `AwaitingCommand` before
any command has been read (the first command of a non-empty path must be a
MoveTo); `afterClose` is `AwaitingCommand` re-entered after a `ClosePath`;
`inPath` records the active command for implicit repetition. -/
inductive PState where
  | start
  | afterClose
  | inPath (cmd : Cmd) (rel : Bool)
  | done
  | errored (e : PErr)
deriving DecidableEq, Repr

/-- The parser cursor: remaining input, current offset, machine state. -/
structure Cursor where
  rest : List Char
  off : Nat
  state : PState
deriving DecidableEq, Repr

/-- The tri-state result of one pull from the lazy segment sequence. -/
inductive PullResult where
  | seg (s : Segment)
  | stop
  | err (e : PErr)
deriving DecidableEq, Repr

/-- Read one full argument group for `cmd` and emit the completed segment,
or transition to `Errored`.  `Close` emits immediately (arity 0) and returns
to `AwaitingCommand`; other commands stay active for implicit repetition. -/
def emitGroup (cmd : Cmd) (rel : Bool) (cs : List Char) (off : Nat) :
    PullResult × Cursor :=
  match fillArgs cmd [] (arity cmd) cs off with
  | .error e => (.err e, ⟨cs, off, .errored e⟩)
  | .ok (args, cs2, o2) =>
    let st := match cmd with
      | .ClosePath => PState.afterClose
      | _ => PState.inPath cmd rel
    (.seg ⟨cmd, rel, args⟩, ⟨cs2, o2, st⟩)

/-- Modelled from the spec: one pull of the segment sequence — skip
separators, then dispatch on the state: end of input terminates, a command
letter switches commands, a number-start character repeats the active
command, anything else is `UnexpectedCharacter` at its offset.  The first
command of a path must be a MoveTo. -/
def pull (c : Cursor) : PullResult × Cursor :=
  match c.state with
  | .done => (.stop, c)
  | .errored _ => (.stop, c)
  | .start =>
    match skipSeparators c.rest c.off with
    | ([], o1) => (.stop, ⟨[], o1, .done⟩)
    | (ch :: r, o1) =>
      match cmdOfChar ch with
      | some (.MoveTo, rel) => emitGroup .MoveTo rel r (o1 + 1)
      | _ => (.err ⟨.UnexpectedCharacter, o1⟩, ⟨ch :: r, o1, .errored ⟨.UnexpectedCharacter, o1⟩⟩)
  | .afterClose =>
    match skipSeparators c.rest c.off with
    | ([], o1) => (.stop, ⟨[], o1, .done⟩)
    | (ch :: r, o1) =>
      match cmdOfChar ch with
      | some (cmd, rel) => emitGroup cmd rel r (o1 + 1)
      | none => (.err ⟨.UnexpectedCharacter, o1⟩, ⟨ch :: r, o1, .errored ⟨.UnexpectedCharacter, o1⟩⟩)
  | .inPath cmd rel =>
    match skipSeparators c.rest c.off with
    | ([], o1) => (.stop, ⟨[], o1, .done⟩)
    | (ch :: r, o1) =>
      match cmdOfChar ch with
      | some (cmd2, rel2) => emitGroup cmd2 rel2 r (o1 + 1)
      | none =>
        if isNumberStart ch then emitGroup cmd rel (ch :: r) o1
        else (.err ⟨.UnexpectedCharacter, o1⟩, ⟨ch :: r, o1, .errored ⟨.UnexpectedCharacter, o1⟩⟩)

/-- Drive the pull-based sequence to exhaustion, collecting the emitted
segments and the terminating error, if any.  The fuel is an upper bound on
the number of pulls; each segment-yielding pull consumes at least one input
character, so `input length + 1` suffices. -/
def runF : Nat → Cursor → List Segment × Option PErr
  | 0, _ => ([], none)
  | fuel + 1, c =>
    match pull c with
    | (.stop, _) => ([], none)
    | (.err e, _) => ([], some e)
    | (.seg s, c2) =>
      match runF fuel c2 with
      | (l, er) => (s :: l, er)

/-- The cursor created once per input string. -/
def initCursor (s : String) : Cursor := ⟨s.data, 0, .start⟩

/-- Parse a full path string: the list of segments emitted before
termination, and the error that ended the parse, if any. -/
def parsePath (s : String) : List Segment × Option PErr :=
  runF (s.length + 1) (initCursor s)

/-- The variant tag of a segment, for claims that only look at kinds. -/
def segKind (s : Segment) : Cmd := s.cmd

/-- The hard-coded path string driven through the parser by `main` in
`src/packages/rust-core/src/kurbo.rs`. -/
def kurboMainPath : String :=
  "M118.02,51.5800 Q77.49,33.26 200.8,458.98 Q400.23,382.58 110.96,268.34 Q413.44,130.86 471.48,12.82 C400.22,96.72 154.92,313.49 365.95,427.32 C440.03,43.36 302.93,335.85 252.98,88.9 Q44.67,467.29 432.74,273.82 Q150.12,454.44 286.18,441.16 C206.97,299.46 215.52,80.66 152.56,406.3 Z"

/-- After an optional leading dot, is a digit available for the scanner?
(`c` alone is a digit, or `c` is a dot immediately followed by a digit). -/
def hasDigitNoSign : List Char → Bool
  | c :: cs =>
    c.isDigit || (c == '.' && (match cs with | d :: _ => d.isDigit | [] => false))
  | [] => false

/-- `read_number` consumes at least one digit from this input: after an
optional sign, the input offers a digit for the integer or fractional part. -/
def hasLeadingDigit : List Char → Bool
  | c :: r =>
    if c = '+' then hasDigitNoSign r
    else if c = '-' then hasDigitNoSign r
    else hasDigitNoSign (c :: r)
  | [] => false

/-- The command letter that renders a command with its relative flag
(`ClosePath` renders as `Z`); inverse of `cmdOfChar`. -/
def cmdChar : Cmd → Bool → Char
  | .MoveTo, false => 'M'
  | .MoveTo, true => 'm'
  | .LineTo, false => 'L'
  | .LineTo, true => 'l'
  | .HorizontalLineTo, false => 'H'
  | .HorizontalLineTo, true => 'h'
  | .VerticalLineTo, false => 'V'
  | .VerticalLineTo, true => 'v'
  | .CurveTo, false => 'C'
  | .CurveTo, true => 'c'
  | .SmoothCurveTo, false => 'S'
  | .SmoothCurveTo, true => 's'
  | .QuadTo, false => 'Q'
  | .QuadTo, true => 'q'
  | .SmoothQuadTo, false => 'T'
  | .SmoothQuadTo, true => 't'
  | .ArcTo, false => 'A'
  | .ArcTo, true => 'a'
  | .ClosePath, _ => 'Z'

/-- An abstract well-formed command/number group of the kind the spec's
"valid inputs" are made of: a command letter and its complete argument
tuples, each numeral given as its digit characters. -/
structure GGroup where
  cmd : Cmd
  rel : Bool
  tuples : List (List (List Char))
deriving DecidableEq, Repr

/-- A well-formed rendered argument: a `0`/`1` for the two arc-flag slots,
otherwise a non-empty run of digits. -/
def wfEntry (cmd : Cmd) (idx : Nat) (e : List Char) : Bool :=
  if isFlagSlot cmd idx then e == ['0'] || e == ['1']
  else !e.isEmpty && e.all (·.isDigit)

/-- All arguments of a tuple well-formed, starting at slot `idx`. -/
def wfEntriesFrom (cmd : Cmd) : Nat → List (List Char) → Bool
  | _, [] => true
  | idx, e :: es => wfEntry cmd idx e && wfEntriesFrom cmd (idx + 1) es

/-- A well-formed group: a `Close` group has no tuples (and no relative
flag); any other group has at least one tuple, each of the command's arity
with well-formed entries. -/
def wfGroup (g : GGroup) : Bool :=
  match g.cmd with
  | .ClosePath => !g.rel && g.tuples.isEmpty
  | _ => !g.tuples.isEmpty &&
      g.tuples.all (fun t => t.length == arity g.cmd && wfEntriesFrom g.cmd 0 t)

/-- A well-formed rendered path: every group well-formed and, if non-empty,
starting with a MoveTo group. -/
def wfPath (gs : List GGroup) : Bool :=
  match gs with
  | [] => true
  | g :: _ => (g.cmd == .MoveTo) && gs.all wfGroup

/-- Render a tuple's entries, one trailing space per numeral. -/
def renderEntries (t : List (List Char)) : List Char :=
  (t.map (fun e => e ++ [' '])).flatten

/-- Render a group's tuples. -/
def renderTuples (ts : List (List (List Char))) : List Char :=
  (ts.map renderEntries).flatten

/-- Render a group: its command letter, a space, then its tuples. -/
def renderGroup (g : GGroup) : List Char :=
  cmdChar g.cmd g.rel :: ' ' :: renderTuples g.tuples

/-- Render a whole path. -/
def renderPath (gs : List GGroup) : List Char :=
  (gs.map renderGroup).flatten

/-- The number of segments a group stands for: one for `Close`, otherwise
one per complete argument tuple. -/
def groupCount (g : GGroup) : Nat :=
  match g.cmd with
  | .ClosePath => 1
  | _ => g.tuples.length

/-- The number of complete argument groups present in a rendered path. -/
def segCount (gs : List GGroup) : Nat := (gs.map groupCount).sum

/-- The parser, iterated: from cursor `c`, some number of pulls each yield a
segment, ending at cursor `c2`. -/
inductive Yields : Cursor → List Segment → Cursor → Prop where
  | refl (c : Cursor) : Yields c [] c
  | step (c c1 c2 : Cursor) (s : Segment) (l : List Segment) :
      pull c = (.seg s, c1) → Yields c1 l c2 → Yields c (s :: l) c2

/-- A digit character is not a command letter. -/
theorem cmdOfChar_digit (c : Char) (h : c.isDigit = true) : cmdOfChar c = none := by
  unfold cmdOfChar
  split <;> first | rfl | exact absurd h (by decide)

/-- A character that starts a number (digit, sign or dot) is not a command
letter. -/
theorem cmdOfChar_numberStart (c : Char) (h : isNumberStart c = true) :
    cmdOfChar c = none := by
  unfold cmdOfChar
  split <;> first | rfl | exact absurd h (by decide)

/-- `skipWsp` consumes an all-whitespace input entirely. -/
theorem skipWsp_all (cs : List Char) (h : ∀ c ∈ cs, isWsp c = true) :
    ∀ off, skipWsp cs off = ([], off + cs.length) := by
  induction cs with
  | nil => intro off; simp [skipWsp]
  | cons c cs ih =>
    intro off
    have hc : isWsp c = true := h c (by simp)
    rw [skipWsp, if_pos hc, ih (fun d hd => h d (by simp [hd]))]
    simp [Nat.add_comm, Nat.add_assoc, Nat.add_left_comm]

/-- A successful `fillArgs` returns exactly the requested number of
additional arguments: the buffer is completely filled. -/
theorem fillArgs_ok_length (cmd : Cmd) :
    ∀ (need : Nat) (acc : List ℚ) (cs : List Char) (off : Nat)
      (args : List ℚ) (cs2 : List Char) (o2 : Nat),
      fillArgs cmd acc need cs off = .ok (args, cs2, o2) →
      args.length = acc.length + need := by
  intro need
  induction need with
  | zero =>
    intro acc cs off args cs2 o2 h
    simp only [fillArgs, Except.ok.injEq, Prod.mk.injEq] at h
    simp [← h.1]
  | succ n ih =>
    intro acc cs off args cs2 o2 h
    rw [fillArgs] at h
    rcases hsk : skipSeparators cs off with ⟨cs1, o1⟩
    rw [hsk] at h
    cases cs1 with
    | nil => simp at h
    | cons c r =>
      dsimp only at h
      rcases hrd : (if isFlagSlot cmd acc.length then readFlag (c :: r) o1
                    else readNumber (c :: r) o1) with e | ⟨v, cs3, o3⟩ <;>
        rw [hrd] at h
      · simp at h
      · have := ih (acc ++ [v]) cs3 o3 args cs2 o2 h
        simp [List.length_append] at this
        omega

/-- The segment emitted by `emitGroup` carries the active command, its
relative flag, and a completely filled argument group. -/
theorem emitGroup_seg (cmd : Cmd) (rel : Bool) (cs : List Char) (off : Nat)
    (s : Segment) (c2 : Cursor) (h : emitGroup cmd rel cs off = (.seg s, c2)) :
    s.cmd = cmd ∧ s.rel = rel ∧ s.args.length = arity cmd := by
  unfold emitGroup at h
  rcases hf : fillArgs cmd [] (arity cmd) cs off with e | ⟨args, cs2, o2⟩ <;>
    rw [hf] at h
  · simp at h
  · simp only [Prod.mk.injEq, PullResult.seg.injEq] at h
    have hl := fillArgs_ok_length cmd (arity cmd) [] cs off args cs2 o2 hf
    simp at hl
    rw [← h.1]
    exact ⟨rfl, rfl, hl⟩

/-- As `emitGroup_seg`, phrased on the emitted segment itself. -/
theorem emitGroup_seg_arity (cmd : Cmd) (rel : Bool) (cs : List Char) (off : Nat)
    (s : Segment) (c2 : Cursor) (h : emitGroup cmd rel cs off = (.seg s, c2)) :
    s.args.length = arity s.cmd := by
  obtain ⟨h1, _, h3⟩ := emitGroup_seg cmd rel cs off s c2 h
  rw [h1]
  exact h3

/-- Once the cursor is in the `Errored` state, a pull yields no segment. -/
theorem pull_stop_of_errored (c : Cursor) (e : PErr) (h : c.state = .errored e) :
    pull c = (.stop, c) := by
  unfold pull
  rw [h]

/-- Every segment a pull emits has a completely filled argument group. -/
theorem pull_seg_arity (c : Cursor) (s : Segment) (c2 : Cursor)
    (h : pull c = (.seg s, c2)) : s.args.length = arity s.cmd := by
  unfold pull at h
  repeat' split at h
  all_goals first
    | exact emitGroup_seg_arity _ _ _ _ _ _ h
    | simp_all

/-- A segment pulled from the initial state is a `MoveTo`. -/
theorem pull_start_moveTo (c : Cursor) (s : Segment) (c2 : Cursor)
    (hst : c.state = .start) (h : pull c = (.seg s, c2)) : s.cmd = .MoveTo := by
  unfold pull at h
  rw [hst] at h
  repeat' split at h
  all_goals first
    | exact (emitGroup_seg _ _ _ _ _ _ h).1
    | simp_all

/-- `takeDigits` on a non-digit head consumes nothing. -/
theorem takeDigits_not (c : Char) (cs : List Char) (off : Nat) (hc : c.isDigit = false) :
    takeDigits (c :: cs) off = ([], c :: cs, off) := by
  simp [takeDigits, hc]

/-- If the mantissa scanner fails, the error is `MalformedNumber` at the
start offset of the attempted number. -/
theorem scanMantissa_error (neg : Bool) (cs1 : List Char) (off o1 : Nat) (e : PErr)
    (h : scanMantissa neg cs1 off o1 = .error e) : e = ⟨.MalformedNumber, off⟩ := by
  unfold scanMantissa at h
  repeat' split at h
  all_goals simp_all

/-- If `readNumber` fails, the error is `MalformedNumber` at the start
offset of the attempted number. -/
theorem readNumber_error (cs : List Char) (off : Nat) (e : PErr)
    (h : readNumber cs off = .error e) : e = ⟨.MalformedNumber, off⟩ := by
  rcases cs with _ | ⟨c, r⟩
  · unfold readNumber at h
    exact scanMantissa_error _ _ _ _ _ h
  · unfold readNumber at h
    dsimp only at h
    by_cases h1 : c = '+'
    · rw [if_pos h1] at h
      exact scanMantissa_error _ _ _ _ _ h
    · rw [if_neg h1] at h
      by_cases h2 : c = '-'
      · rw [if_pos h2] at h
        exact scanMantissa_error _ _ _ _ _ h
      · rw [if_neg h2] at h
        exact scanMantissa_error _ _ _ _ _ h

/-- If the input after the sign offers no digit, the mantissa scanner fails
with `MalformedNumber` at the start offset. -/
theorem scanMantissa_noDigit (neg : Bool) (cs1 : List Char) (off o1 : Nat)
    (h : hasDigitNoSign cs1 = false) :
    scanMantissa neg cs1 off o1 = .error ⟨.MalformedNumber, off⟩ := by
  rcases cs1 with _ | ⟨c, rr⟩
  · rfl
  · simp only [hasDigitNoSign, Bool.or_eq_false_iff, Bool.and_eq_false_iff] at h
    obtain ⟨hc, hdot⟩ := h
    unfold scanMantissa
    rw [takeDigits_not c rr o1 hc]
    dsimp only
    by_cases hcd : c = '.'
    · subst hcd
      rw [if_pos rfl]
      rcases hdot with hdot | hdot
      · simp at hdot
      · rcases rr with _ | ⟨d, rd⟩
        · rfl
        · simp only at hdot
          rw [takeDigits_not d rd _ hdot]
          rfl
    · rw [if_neg hcd]
      rfl

/-- If the input offers no digit to consume, `readNumber` fails with
`MalformedNumber` at the start offset. -/
theorem readNumber_noDigit (cs : List Char) (off : Nat)
    (h : hasLeadingDigit cs = false) : readNumber cs off = .error ⟨.MalformedNumber, off⟩ := by
  rcases cs with _ | ⟨c, r⟩
  · rfl
  · unfold hasLeadingDigit at h
    unfold readNumber
    dsimp only at h ⊢
    by_cases h1 : c = '+'
    · rw [if_pos h1] at h ⊢
      exact scanMantissa_noDigit false r off (off + 1) h
    · by_cases h2 : c = '-'
      · rw [if_neg h1, if_pos h2] at h ⊢
        exact scanMantissa_noDigit true r off (off + 1) h
      · rw [if_neg h1, if_neg h2] at h ⊢
        exact scanMantissa_noDigit false (c :: r) off off h

/-- C8: the number scanner accepts an optional sign, digits, an optional
fractional part and an optional exponent; it splits digit runs adjacent to
the next token, scanning `"1.5.5"` as `1.5` followed by `.5`; and it fails
with `MalformedNumber` (at the start offset) exactly when no digit is
available to consume. -/
theorem claim_C8 :
    (∀ cs off e, readNumber cs off = .error e → e = ⟨.MalformedNumber, off⟩) ∧
    (∀ cs off, hasLeadingDigit cs = false →
      readNumber cs off = .error ⟨.MalformedNumber, off⟩) ∧
    readNumber "1.5.5".data 0 = .ok (mkRat 15 10, ".5".data, 3) ∧
    readNumber ".5".data 3 = .ok (mkRat 5 10, [], 5) ∧
    (mkRat 15 10 : ℚ).num = 3 ∧ (mkRat 15 10 : ℚ).den = 2 ∧
    (mkRat 5 10 : ℚ).num = 1 ∧ (mkRat 5 10 : ℚ).den = 2 ∧
    readNumber "+2.5e-1".data 0 = .ok (mkRat 25 100, [], 7) := by
  exact ⟨readNumber_error, readNumber_noDigit, by rfl, by rfl,
    by decide, by decide, by decide, by decide, by rfl⟩

/-- Witness for C8 at concrete inputs: `"..x"` offers no digit and fails
with `MalformedNumber` at the start offset; an error returned on `"z"` is
`MalformedNumber`. -/
theorem claim_C8_witness :
    readNumber "..x".data 2 = .error ⟨.MalformedNumber, 2⟩ ∧
    (⟨.MalformedNumber, 0⟩ : PErr) = ⟨.MalformedNumber, 0⟩ := by
  constructor
  · exact claim_C8.2.1 "..x".data 2 (by decide)
  · exact claim_C8.1 "z".data 0 ⟨.MalformedNumber, 0⟩ (by rfl)

/-- A digit is not whitespace. -/
theorem not_wsp_of_digit (c : Char) (h : c.isDigit = true) : isWsp c = false := by
  by_cases h1 : c = ' '
  · subst h1; exact absurd h (by decide)
  · by_cases h2 : c = '\t'
    · subst h2; exact absurd h (by decide)
    · by_cases h3 : c = '\n'
      · subst h3; exact absurd h (by decide)
      · by_cases h4 : c = '\r'
        · subst h4; exact absurd h (by decide)
        · simp [isWsp, h1, h2, h3, h4]

/-- A digit is not a comma. -/
theorem not_comma_of_digit (c : Char) (h : c.isDigit = true) : (c == ',') = false := by
  by_cases h1 : c = ','
  · subst h1; exact absurd h (by decide)
  · simp [h1]

/-- A digit starts a number. -/
theorem isNumberStart_of_digit (c : Char) (h : c.isDigit = true) :
    isNumberStart c = true := by
  simp [isNumberStart, h]

/-- `skipSeparators` does not move past a non-separator character. -/
theorem skipSeparators_eq (c : Char) (r : List Char) (off : Nat)
    (h1 : isWsp c = false) (h2 : (c == ',') = false) :
    skipSeparators (c :: r) off = (c :: r, off) := by
  unfold skipSeparators
  rw [skipWsp, if_neg (by simp [h1])]
  dsimp only
  rw [if_neg (by simpa using h2)]

/-- `skipSeparators` consumes a leading space and goes on. -/
theorem skipSeparators_cons_space (X : List Char) (off : Nat) :
    skipSeparators (' ' :: X) off = skipSeparators X (off + 1) := by
  unfold skipSeparators
  rw [skipWsp, if_pos (by decide)]

/-- `takeDigits` consumes a full digit run up to a non-digit character. -/
theorem takeDigits_digits (ds : List Char) :
    ∀ (c0 : Char) (R : List Char) (off : Nat),
      ds.all (·.isDigit) = true → c0.isDigit = false →
      takeDigits (ds ++ c0 :: R) off = (ds, c0 :: R, off + ds.length) := by
  induction ds with
  | nil =>
    intro c0 R off _ hc0
    simpa using takeDigits_not c0 R off hc0
  | cons d ds ih =>
    intro c0 R off hd hc0
    simp only [List.all_cons, Bool.and_eq_true] at hd
    rw [List.cons_append, takeDigits, if_pos hd.1, ih c0 R (off + 1) hd.2 hc0]
    simp [Nat.add_comm, Nat.add_assoc, Nat.add_left_comm]

/-- `readNumber` on a rendered digit run followed by a space: consumes
exactly the digits and succeeds. -/
theorem readNumber_digits (ds : List Char) (R : List Char) (off : Nat)
    (hne : ds ≠ []) (hd : ds.all (·.isDigit) = true) :
    ∃ v, readNumber (ds ++ ' ' :: R) off = .ok (v, ' ' :: R, off + ds.length) := by
  rcases ds with _ | ⟨d, ds'⟩
  · exact absurd rfl hne
  · have hdd : d.isDigit = true := by
      simp only [List.all_cons, Bool.and_eq_true] at hd
      exact hd.1
    have hplus : d ≠ '+' := by
      intro hh
      rw [hh] at hdd
      exact absurd hdd (by decide)
    have hminus : d ≠ '-' := by
      intro hh
      rw [hh] at hdd
      exact absurd hdd (by decide)
    unfold readNumber
    rw [List.cons_append]
    dsimp only
    rw [if_neg hplus, if_neg hminus, ← List.cons_append]
    unfold scanMantissa
    rw [takeDigits_digits (d :: ds') ' ' R off hd (by decide)]
    try dsimp only
    rw [if_neg (by decide : ¬(' ' = '.'))]
    try dsimp only
    rw [if_neg (by simp)]
    try dsimp only
    rw [if_neg (by decide)]
    exact ⟨_, rfl⟩

/-- `readFlag` on a rendered flag followed by a space. -/
theorem readFlag_entry (e : List Char) (R : List Char) (off : Nat)
    (he : (e == ['0'] || e == ['1']) = true) :
    ∃ v, readFlag (e ++ ' ' :: R) off = .ok (v, ' ' :: R, off + e.length) := by
  rcases Bool.or_eq_true_iff.mp he with h | h <;> rw [eq_of_beq h]
  · exact ⟨0, rfl⟩
  · exact ⟨1, rfl⟩

/-- `fillArgs` ignores a leading space when at least one argument remains. -/
theorem fillArgs_cons_space (cmd : Cmd) (acc : List ℚ) (k : Nat) (X : List Char)
    (off : Nat) :
    fillArgs cmd acc (k + 1) (' ' :: X) off = fillArgs cmd acc (k + 1) X (off + 1) := by
  rw [fillArgs, fillArgs, skipSeparators_cons_space]

/-- Reading one well-formed rendered argument advances `fillArgs` by one
slot, consuming the argument's characters. -/
theorem fillArgs_step (cmd : Cmd) (e : List Char) (acc : List ℚ) (k : Nat)
    (X : List Char) (off : Nat) (hwf : wfEntry cmd acc.length e = true) :
    ∃ v, fillArgs cmd acc (k + 1) (e ++ ' ' :: X) off =
      fillArgs cmd (acc ++ [v]) k (' ' :: X) (off + e.length) := by
  unfold wfEntry at hwf
  by_cases hf : isFlagSlot cmd acc.length = true
  · rw [if_pos hf] at hwf
    obtain ⟨v, hrf⟩ := readFlag_entry e X off hwf
    have hene : e ≠ [] := by
      rcases Bool.or_eq_true_iff.mp hwf with h | h <;> rw [eq_of_beq h] <;> simp
    rcases e with _ | ⟨c, e'⟩
    · exact absurd rfl hene
    · have hcd : c.isDigit = true := by
        rcases Bool.or_eq_true_iff.mp hwf with h | h <;>
          · have := eq_of_beq h
            injection this with h1 h2
            subst h1
            decide
      rw [fillArgs, List.cons_append,
        skipSeparators_eq c (e' ++ ' ' :: X) off (not_wsp_of_digit c hcd)
          (not_comma_of_digit c hcd)]
      dsimp only
      rw [if_pos hf, ← List.cons_append, hrf]
      exact ⟨v, rfl⟩
  · rw [if_neg hf] at hwf
    simp only [Bool.and_eq_true, Bool.not_eq_true'] at hwf
    obtain ⟨h1, h2⟩ := hwf
    rcases e with _ | ⟨d, e'⟩
    · simp at h1
    · have hdd : d.isDigit = true := by
        simp only [List.all_cons, Bool.and_eq_true] at h2
        exact h2.1
      rw [fillArgs, List.cons_append,
        skipSeparators_eq d (e' ++ ' ' :: X) off (not_wsp_of_digit d hdd)
          (not_comma_of_digit d hdd)]
      dsimp only
      rw [if_neg hf, ← List.cons_append]
      obtain ⟨v, hrn⟩ := readNumber_digits (d :: e') X off (by simp) h2
      rw [hrn]
      exact ⟨v, rfl⟩

/-- A well-formed entry is non-empty. -/
theorem wfEntry_ne (cmd : Cmd) (idx : Nat) (e : List Char)
    (h : wfEntry cmd idx e = true) : e ≠ [] := by
  intro hh
  subst hh
  unfold wfEntry at h
  by_cases hf : isFlagSlot cmd idx = true
  · rw [if_pos hf] at h
    simp at h
  · rw [if_neg hf] at h
    simp at h

/-- Every command except `Close` takes at least one argument. -/
theorem arity_pos (cmd : Cmd) (h : cmd ≠ .ClosePath) : 1 ≤ arity cmd := by
  cases cmd <;> first | exact absurd rfl h | decide

/-- Rendering distributes over the first entry. -/
theorem renderEntries_cons (e : List Char) (es : List (List Char)) (R : List Char) :
    renderEntries (e :: es) ++ R = e ++ ' ' :: (renderEntries es ++ R) := by
  simp [renderEntries]

/-- `fillArgs` reads a full rendered tuple, leaving the trailing space. -/
theorem fillArgs_entries (cmd : Cmd) :
    ∀ (t : List (List Char)) (acc : List ℚ) (R : List Char) (off : Nat),
      t ≠ [] → wfEntriesFrom cmd acc.length t = true →
      ∃ vals o2, fillArgs cmd acc t.length (renderEntries t ++ R) off =
        .ok (acc ++ vals, ' ' :: R, o2) ∧ vals.length = t.length := by
  intro t
  induction t with
  | nil =>
    intro acc R off hne _
    exact absurd rfl hne
  | cons e es ih =>
    intro acc R off _ hwf
    simp only [wfEntriesFrom, Bool.and_eq_true] at hwf
    obtain ⟨hwe, hrest⟩ := hwf
    rw [renderEntries_cons]
    rw [show (e :: es).length = es.length + 1 from rfl]
    obtain ⟨v, hstep⟩ := fillArgs_step cmd e acc es.length (renderEntries es ++ R) off hwe
    rw [hstep]
    rcases es with _ | ⟨e2, es'⟩
    · refine ⟨[v], off + e.length, ?_, rfl⟩
      simp [fillArgs, renderEntries]
    · rw [show (e2 :: es').length = es'.length + 1 from rfl, fillArgs_cons_space,
        show es'.length + 1 = (e2 :: es').length from rfl]
      obtain ⟨vals, o2, hfa, hlen⟩ :=
        ih (acc ++ [v]) R (off + e.length + 1) (by simp) (by simpa using hrest)
      refine ⟨v :: vals, o2, ?_, by simp [hlen]⟩
      rw [hfa]
      simp

/-- `fillArgs` on a trailing incomplete rendered group fails with
`UnexpectedEndOfInput`. -/
theorem fillArgs_partial (cmd : Cmd) :
    ∀ (pe : List (List Char)) (acc : List ℚ) (need : Nat) (off : Nat),
      pe.length < need → wfEntriesFrom cmd acc.length pe = true →
      ∃ o2, fillArgs cmd acc need (renderEntries pe) off =
        .error ⟨.UnexpectedEndOfInput, o2⟩ := by
  intro pe
  induction pe with
  | nil =>
    intro acc need off hlt _
    rcases need with _ | k
    · omega
    · exact ⟨off, rfl⟩
  | cons e pe' ih =>
    intro acc need off hlt hwf
    simp only [wfEntriesFrom, Bool.and_eq_true] at hwf
    obtain ⟨hwe, hrest⟩ := hwf
    rcases need with _ | k
    · omega
    · have hren : renderEntries (e :: pe') = e ++ ' ' :: renderEntries pe' := by
        have := renderEntries_cons e pe' []
        simpa using this
      rw [hren]
      obtain ⟨v, hstep⟩ := fillArgs_step cmd e acc k (renderEntries pe') off hwe
      rw [hstep]
      rcases k with _ | k2
      · simp only [List.length_cons] at hlt
        omega
      · rw [fillArgs_cons_space]
        obtain ⟨o2, hfa⟩ := ih (acc ++ [v]) (k2 + 1) (off + e.length + 1)
          (by simp only [List.length_cons] at hlt; omega) (by simpa using hrest)
        exact ⟨o2, by rw [hfa]⟩

/-- Yields derivations compose. -/
theorem yields_trans (c1 c2 c3 : Cursor) (l1 l2 : List Segment)
    (h1 : Yields c1 l1 c2) (h2 : Yields c2 l2 c3) : Yields c1 (l1 ++ l2) c3 := by
  induction h1 with
  | refl c => simpa using h2
  | step c ca cb s l hp hy ih => exact Yields.step _ _ _ _ _ hp (ih h2)

/-- `runF` follows a Yields derivation, then continues from its end cursor. -/
theorem runF_yields (c c2 : Cursor) (segs : List Segment) (h : Yields c segs c2) :
    ∀ fuel, segs.length ≤ fuel →
      runF fuel c = (segs ++ (runF (fuel - segs.length) c2).1,
                     (runF (fuel - segs.length) c2).2) := by
  induction h with
  | refl c =>
    intro fuel _
    simp
  | step c ca cb s l hp hy ih =>
    intro fuel hf
    rcases fuel with _ | f
    · simp at hf
    · rw [runF, hp]
      dsimp only
      rw [ih f (by simpa using hf)]
      simp

/-- A stopping pull ends the run cleanly. -/
theorem runF_stop (c c2 : Cursor) (fuel : Nat) (hp : pull c = (.stop, c2))
    (hf : 1 ≤ fuel) : runF fuel c = ([], none) := by
  rcases fuel with _ | f
  · omega
  · rw [runF, hp]

/-- An erroring pull surfaces its error. -/
theorem runF_err (c c2 : Cursor) (e : PErr) (fuel : Nat) (hp : pull c = (.err e, c2))
    (hf : 1 ≤ fuel) : runF fuel c = ([], some e) := by
  rcases fuel with _ | f
  · omega
  · rw [runF, hp]

/-- Command letters are not separators. -/
theorem cmdOfChar_not_sep (ch : Char) (p : Cmd × Bool) (h : cmdOfChar ch = some p) :
    isWsp ch = false ∧ (ch == ',') = false := by
  unfold cmdOfChar at h
  split at h <;> first | exact ⟨by decide, by decide⟩ | exact absurd h (by simp)

/-- `cmdChar` renders a letter that reads back as the same command. -/
theorem cmdOfChar_cmdChar (cmd : Cmd) (rel : Bool) (h : cmd = .ClosePath → rel = false) :
    cmdOfChar (cmdChar cmd rel) = some (cmd, rel) := by
  cases cmd <;> cases rel <;> first | rfl | exact absurd (h rfl) (by simp)

/-- A pull skips one leading space. -/
theorem pull_cons_space (cs : List Char) (off : Nat) (st : PState)
    (hst : st = .start ∨ st = .afterClose ∨ ∃ c r, st = .inPath c r) :
    pull ⟨' ' :: cs, off, st⟩ = pull ⟨cs, off + 1, st⟩ := by
  rcases hst with h | h | ⟨c0, r0, h⟩ <;> subst h <;>
    · unfold pull
      dsimp only
      rw [skipSeparators_cons_space]

/-- A pull in the initial state on a MoveTo letter reads the letter and its
first argument group. -/
theorem pull_letter_start (ch : Char) (rel : Bool)
    (hch : cmdOfChar ch = some (.MoveTo, rel)) (X : List Char) (off : Nat) :
    pull ⟨ch :: X, off, .start⟩ = emitGroup .MoveTo rel X (off + 1) := by
  obtain ⟨hw, hc⟩ := cmdOfChar_not_sep ch (.MoveTo, rel) hch
  unfold pull
  dsimp only
  rw [skipSeparators_eq ch X off hw hc]
  dsimp only
  rw [hch]

/-- A pull after a close on a command letter reads it and its group. -/
theorem pull_letter_afterClose (ch : Char) (cmd : Cmd) (rel : Bool)
    (hch : cmdOfChar ch = some (cmd, rel)) (X : List Char) (off : Nat) :
    pull ⟨ch :: X, off, .afterClose⟩ = emitGroup cmd rel X (off + 1) := by
  obtain ⟨hw, hc⟩ := cmdOfChar_not_sep ch (cmd, rel) hch
  unfold pull
  dsimp only
  rw [skipSeparators_eq ch X off hw hc]
  dsimp only
  rw [hch]

/-- A pull mid-path on a command letter switches to it and reads its group. -/
theorem pull_letter_inPath (c0 : Cmd) (r0 : Bool) (ch : Char) (cmd : Cmd) (rel : Bool)
    (hch : cmdOfChar ch = some (cmd, rel)) (X : List Char) (off : Nat) :
    pull ⟨ch :: X, off, .inPath c0 r0⟩ = emitGroup cmd rel X (off + 1) := by
  obtain ⟨hw, hc⟩ := cmdOfChar_not_sep ch (cmd, rel) hch
  unfold pull
  dsimp only
  rw [skipSeparators_eq ch X off hw hc]
  dsimp only
  rw [hch]

/-- A pull mid-path on a digit repeats the active command implicitly. -/
theorem pull_digit_inPath (cmd : Cmd) (rel : Bool) (c1 : Char) (X : List Char)
    (off : Nat) (hd : c1.isDigit = true) :
    pull ⟨c1 :: X, off, .inPath cmd rel⟩ = emitGroup cmd rel (c1 :: X) off := by
  unfold pull
  dsimp only
  rw [skipSeparators_eq c1 X off (not_wsp_of_digit c1 hd) (not_comma_of_digit c1 hd)]
  dsimp only
  rw [cmdOfChar_digit c1 hd]
  dsimp only
  rw [if_pos (isNumberStart_of_digit c1 hd)]

/-- A pull at the end of input stops. -/
theorem pull_stop_nil (off : Nat) (st : PState)
    (hst : st = .start ∨ st = .afterClose ∨ ∃ c r, st = .inPath c r) :
    ∃ c2, pull ⟨[], off, st⟩ = (.stop, c2) := by
  rcases hst with h | h | ⟨c0, r0, h⟩ <;> subst h <;> exact ⟨_, rfl⟩

/-- A pull on a single trailing space stops. -/
theorem pull_stop_space (off : Nat) (st : PState)
    (hst : st = .start ∨ st = .afterClose ∨ ∃ c r, st = .inPath c r) :
    ∃ c2, pull ⟨[' '], off, st⟩ = (.stop, c2) := by
  rcases hst with h | h | ⟨c0, r0, h⟩ <;> subst h <;> exact ⟨_, rfl⟩

/-- `Close` emits immediately, consuming no arguments, back to
`AwaitingCommand`. -/
theorem emitGroup_close (rel : Bool) (R : List Char) (off : Nat) :
    emitGroup .ClosePath rel R off =
      (.seg ⟨.ClosePath, rel, []⟩, ⟨R, off, .afterClose⟩) := rfl

/-- Reading one complete rendered tuple emits one segment of the active
command. -/
theorem emitGroup_tuple (cmd : Cmd) (rel : Bool) (t : List (List Char)) (R : List Char)
    (off : Nat) (hcmd : cmd ≠ .ClosePath) (hne : t ≠ []) (hlen : t.length = arity cmd)
    (hwf : wfEntriesFrom cmd 0 t = true) :
    ∃ vals o2, emitGroup cmd rel (renderEntries t ++ R) off =
      (.seg ⟨cmd, rel, vals⟩, ⟨' ' :: R, o2, .inPath cmd rel⟩) := by
  obtain ⟨vals, o2, hfa, _⟩ := fillArgs_entries cmd t [] R off hne (by simpa using hwf)
  simp only [List.nil_append] at hfa
  refine ⟨vals, o2, ?_⟩
  unfold emitGroup
  rw [← hlen, hfa]
  dsimp only
  split
  · exact absurd rfl hcmd
  · rfl

/-- As `emitGroup_tuple`, with the leading separator space still present. -/
theorem emitGroup_space_tuple (cmd : Cmd) (rel : Bool) (t : List (List Char))
    (R : List Char) (off : Nat) (hcmd : cmd ≠ .ClosePath) (hne : t ≠ [])
    (hlen : t.length = arity cmd) (hwf : wfEntriesFrom cmd 0 t = true) :
    ∃ vals o2, emitGroup cmd rel (' ' :: (renderEntries t ++ R)) off =
      (.seg ⟨cmd, rel, vals⟩, ⟨' ' :: R, o2, .inPath cmd rel⟩) := by
  obtain ⟨k, hk⟩ : ∃ k, arity cmd = k + 1 := by
    have := arity_pos cmd hcmd
    exact ⟨arity cmd - 1, by omega⟩
  obtain ⟨vals, o2, hfa, _⟩ := fillArgs_entries cmd t [] R (off + 1) hne (by simpa using hwf)
  simp only [List.nil_append] at hfa
  refine ⟨vals, o2, ?_⟩
  unfold emitGroup
  rw [hk, fillArgs_cons_space, ← hk, ← hlen, hfa]
  dsimp only
  split
  · exact absurd rfl hcmd
  · rfl

/-- An incomplete trailing rendered group makes `emitGroup` fail with
`UnexpectedEndOfInput` and no segment. -/
theorem emitGroup_partial (cmd : Cmd) (rel : Bool) (pe : List (List Char)) (off : Nat)
    (hcmd : cmd ≠ .ClosePath) (hlt : pe.length < arity cmd)
    (hwf : wfEntriesFrom cmd 0 pe = true) :
    ∃ o2, emitGroup cmd rel (' ' :: renderEntries pe) off =
      (.err ⟨.UnexpectedEndOfInput, o2⟩,
        ⟨' ' :: renderEntries pe, off, .errored ⟨.UnexpectedEndOfInput, o2⟩⟩) := by
  obtain ⟨k, hk⟩ : ∃ k, arity cmd = k + 1 := by
    have := arity_pos cmd hcmd
    exact ⟨arity cmd - 1, by omega⟩
  obtain ⟨o2, hfa⟩ := fillArgs_partial cmd pe [] (arity cmd) (off + 1) hlt (by simpa using hwf)
  refine ⟨o2, ?_⟩
  unfold emitGroup
  rw [hk, fillArgs_cons_space, ← hk, hfa]

/-- A rendered tuple starts with a digit. -/
theorem renderEntries_head (cmd : Cmd) (idx : Nat) (e : List Char) (es : List (List Char))
    (hwe : wfEntry cmd idx e = true) :
    ∃ c1 D, renderEntries (e :: es) = c1 :: D ∧ c1.isDigit = true := by
  have hne := wfEntry_ne cmd idx e hwe
  rcases e with _ | ⟨c1, e'⟩
  · exact absurd rfl hne
  · refine ⟨c1, e' ++ ' ' :: renderEntries es, by simp [renderEntries], ?_⟩
    unfold wfEntry at hwe
    by_cases hf : isFlagSlot cmd idx = true
    · rw [if_pos hf] at hwe
      rcases Bool.or_eq_true_iff.mp hwe with h | h <;>
        · have h2 := eq_of_beq h
          injection h2 with h3 h4
          rw [h3]
          decide
    · rw [if_neg hf] at hwe
      simp only [Bool.and_eq_true, List.all_cons] at hwe
      exact hwe.2.1

/-- The non-`Close` group count is the tuple count. -/
theorem groupCount_noclose (cmd : Cmd) (rel : Bool) (ts : List (List (List Char)))
    (h : cmd ≠ .ClosePath) : groupCount ⟨cmd, rel, ts⟩ = ts.length := by
  cases cmd <;> first | exact absurd rfl h | rfl

/-- Implicit repetition: each remaining rendered tuple of the active command
yields one more segment. -/
theorem yields_tuples (cmd : Cmd) (rel : Bool) (hcmd : cmd ≠ .ClosePath) :
    ∀ (ts : List (List (List Char))) (R : List Char) (off : Nat),
      (∀ t ∈ ts, t.length = arity cmd ∧ wfEntriesFrom cmd 0 t = true) →
      ∃ segs o2, Yields ⟨' ' :: (renderTuples ts ++ R), off, .inPath cmd rel⟩ segs
          ⟨' ' :: R, o2, .inPath cmd rel⟩ ∧ segs.length = ts.length := by
  intro ts
  induction ts with
  | nil =>
    intro R off _
    refine ⟨[], off, ?_, rfl⟩
    have h0 : renderTuples ([] : List (List (List Char))) ++ R = R := by
      simp [renderTuples]
    rw [h0]
    exact Yields.refl _
  | cons t ts' ih =>
    intro R off hwf
    obtain ⟨hlen1, hwf1⟩ := hwf t (by simp)
    have hne : t ≠ [] := by
      intro hh
      rw [hh] at hlen1
      have := arity_pos cmd hcmd
      simp at hlen1
      omega
    have hren : renderTuples (t :: ts') ++ R = renderEntries t ++ (renderTuples ts' ++ R) := by
      simp [renderTuples]
    obtain ⟨e, es, het⟩ : ∃ e es, t = e :: es := by
      rcases t with _ | ⟨e, es⟩
      · exact absurd rfl hne
      · exact ⟨e, es, rfl⟩
    have hwe : wfEntry cmd 0 e = true := by
      rw [het] at hwf1
      simp only [wfEntriesFrom, Bool.and_eq_true] at hwf1
      exact hwf1.1
    obtain ⟨c1, D, hD, hc1⟩ := renderEntries_head cmd 0 e es hwe
    obtain ⟨vals, o2, hemit⟩ :=
      emitGroup_tuple cmd rel t (renderTuples ts' ++ R) (off + 1) hcmd hne hlen1 hwf1
    have hpull : pull ⟨' ' :: (renderTuples (t :: ts') ++ R), off, .inPath cmd rel⟩ =
        (.seg ⟨cmd, rel, vals⟩, ⟨' ' :: (renderTuples ts' ++ R), o2, .inPath cmd rel⟩) := by
      rw [pull_cons_space _ _ _ (Or.inr (Or.inr ⟨cmd, rel, rfl⟩)), hren, het, hD,
        List.cons_append, pull_digit_inPath cmd rel c1 _ _ hc1, ← List.cons_append,
        ← hD, ← het, hemit]
    obtain ⟨segs', o3, hY, hlen'⟩ := ih R o2 (fun t' ht' => hwf t' (by simp [ht']))
    refine ⟨⟨cmd, rel, vals⟩ :: segs', o3, ?_, by simp [hlen']⟩
    exact Yields.step _ _ _ _ _ hpull hY

/-- One whole rendered group yields exactly its segment count, ending just
before the trailing space. -/
theorem yields_group (cmd : Cmd) (rel : Bool) (ts : List (List (List Char)))
    (R : List Char) (off : Nat) (st : PState)
    (hwf : wfGroup ⟨cmd, rel, ts⟩ = true)
    (hst : (st = .start ∧ cmd = .MoveTo) ∨ st = .afterClose ∨ ∃ c r, st = .inPath c r) :
    ∃ segs o2 st2,
      Yields ⟨renderGroup ⟨cmd, rel, ts⟩ ++ R, off, st⟩ segs ⟨' ' :: R, o2, st2⟩ ∧
      segs.length = groupCount ⟨cmd, rel, ts⟩ ∧
      (st2 = .afterClose ∨ ∃ c r, st2 = .inPath c r) := by
  have hrel : cmd = .ClosePath → rel = false := by
    intro hc
    subst hc
    unfold wfGroup at hwf
    simp only [Bool.and_eq_true, Bool.not_eq_true'] at hwf
    exact hwf.1
  have hch := cmdOfChar_cmdChar cmd rel hrel
  have hrg : renderGroup ⟨cmd, rel, ts⟩ ++ R =
      cmdChar cmd rel :: (' ' :: (renderTuples ts ++ R)) := by
    simp [renderGroup]
  have hpull : pull ⟨renderGroup ⟨cmd, rel, ts⟩ ++ R, off, st⟩ =
      emitGroup cmd rel (' ' :: (renderTuples ts ++ R)) (off + 1) := by
    rw [hrg]
    rcases hst with ⟨h, hM⟩ | h | ⟨c0, r0, h⟩ <;> subst h
    · subst hM
      exact pull_letter_start _ rel hch _ _
    · exact pull_letter_afterClose _ cmd rel hch _ _
    · exact pull_letter_inPath c0 r0 _ cmd rel hch _ _
  by_cases hclose : cmd = .ClosePath
  · subst hclose
    have hts : ts = [] := by
      unfold wfGroup at hwf
      simp only [Bool.and_eq_true, Bool.not_eq_true'] at hwf
      exact List.isEmpty_iff.mp hwf.2
    subst hts
    refine ⟨[⟨.ClosePath, rel, []⟩], off + 1, .afterClose, ?_, rfl, Or.inl rfl⟩
    refine Yields.step _ _ _ _ _ ?_ (Yields.refl _)
    rw [hpull]
    have h0 : renderTuples ([] : List (List (List Char))) ++ R = R := by
      simp [renderTuples]
    rw [h0]
    exact emitGroup_close rel (' ' :: R) (off + 1)
  · have hts : ts.isEmpty = false ∧
        ∀ t ∈ ts, t.length = arity cmd ∧ wfEntriesFrom cmd 0 t = true := by
      unfold wfGroup at hwf
      split at hwf
      · exact absurd (by assumption) hclose
      · simp only [Bool.and_eq_true, Bool.not_eq_true', List.all_eq_true] at hwf
        refine ⟨hwf.1, fun t ht => ?_⟩
        have := hwf.2 t ht
        simp only [Bool.and_eq_true, beq_iff_eq] at this
        exact this
    obtain ⟨htsne, htswf⟩ := hts
    obtain ⟨t, ts', het⟩ : ∃ t ts', ts = t :: ts' := by
      rcases ts with _ | ⟨t, ts'⟩
      · simp at htsne
      · exact ⟨t, ts', rfl⟩
    subst het
    obtain ⟨hlen1, hwf1⟩ := htswf t (by simp)
    have hne1 : t ≠ [] := by
      intro hh
      rw [hh] at hlen1
      have := arity_pos cmd hclose
      simp at hlen1
      omega
    obtain ⟨vals, o2, hemit⟩ :=
      emitGroup_space_tuple cmd rel t (renderTuples ts' ++ R) (off + 1) hclose hne1 hlen1 hwf1
    have hrt : renderTuples (t :: ts') ++ R = renderEntries t ++ (renderTuples ts' ++ R) := by
      simp [renderTuples]
    obtain ⟨segs', o3, hY, hlen'⟩ :=
      yields_tuples cmd rel hclose ts' R o2 (fun t' ht' => htswf t' (by simp [ht']))
    refine ⟨⟨cmd, rel, vals⟩ :: segs', o3, .inPath cmd rel, ?_, ?_, Or.inr ⟨cmd, rel, rfl⟩⟩
    · refine Yields.step _ _ _ _ _ ?_ hY
      rw [hpull, hrt, hemit]
    · rw [groupCount_noclose cmd rel _ hclose]
      simp [hlen']

/-- Every well-formed group yields at least one segment. -/
theorem groupCount_pos (g : GGroup) (hwf : wfGroup g = true) : 1 ≤ groupCount g := by
  obtain ⟨cmd, rel, ts⟩ := g
  by_cases hc : cmd = .ClosePath
  · subst hc
    simp [groupCount]
  · rw [groupCount_noclose cmd rel ts hc]
    unfold wfGroup at hwf
    split at hwf
    · exact absurd (by assumption) hc
    · simp only [Bool.and_eq_true, Bool.not_eq_true'] at hwf
      have h1 := hwf.1
      rcases ts with _ | ⟨a, b⟩
      · simp at h1
      · simp

/-- A rendered tuple is at least twice as long as its entry count. -/
theorem renderEntries_len (cmd : Cmd) :
    ∀ (t : List (List Char)) (idx : Nat), wfEntriesFrom cmd idx t = true →
      2 * t.length ≤ (renderEntries t).length := by
  intro t
  induction t with
  | nil =>
    intro idx _
    simp [renderEntries]
  | cons e es ih =>
    intro idx hwf
    simp only [wfEntriesFrom, Bool.and_eq_true] at hwf
    obtain ⟨hwe, hrest⟩ := hwf
    have he1 : 1 ≤ e.length := List.length_pos.mpr (wfEntry_ne cmd idx e hwe)
    have hrec := ih (idx + 1) hrest
    have hre : renderEntries (e :: es) = (e ++ [' ']) ++ renderEntries es := by
      simp [renderEntries]
    rw [hre]
    simp only [List.length_append, List.length_cons, List.length_nil]
    omega

/-- A group's rendered tuples are at least twice as long as the tuple count. -/
theorem renderTuples_len (cmd : Cmd) (hcmd : cmd ≠ .ClosePath) :
    ∀ (ts : List (List (List Char))),
      (∀ t ∈ ts, t.length = arity cmd ∧ wfEntriesFrom cmd 0 t = true) →
      2 * ts.length ≤ (renderTuples ts).length := by
  intro ts
  induction ts with
  | nil =>
    intro _
    simp [renderTuples]
  | cons t ts' ih =>
    intro hwf
    obtain ⟨hlen1, hwf1⟩ := hwf t (by simp)
    have h1 := renderEntries_len cmd t 0 hwf1
    have h2 : 1 ≤ t.length := by
      have := arity_pos cmd hcmd
      omega
    have h3 := ih (fun t' ht' => hwf t' (by simp [ht']))
    have hrt : renderTuples (t :: ts') = renderEntries t ++ renderTuples ts' := by
      simp [renderTuples]
    rw [hrt]
    simp only [List.length_append, List.length_cons]
    omega

/-- A rendered group is at least twice as long as its segment count. -/
theorem renderGroup_len (g : GGroup) (hwf : wfGroup g = true) :
    2 * groupCount g ≤ (renderGroup g).length := by
  obtain ⟨cmd, rel, ts⟩ := g
  by_cases hc : cmd = .ClosePath
  · subst hc
    simp [renderGroup, groupCount]
  · rw [groupCount_noclose cmd rel ts hc]
    have hts : ∀ t ∈ ts, t.length = arity cmd ∧ wfEntriesFrom cmd 0 t = true := by
      unfold wfGroup at hwf
      split at hwf
      · exact absurd (by assumption) hc
      · simp only [Bool.and_eq_true, Bool.not_eq_true', List.all_eq_true] at hwf
        intro t ht
        have := hwf.2 t ht
        simp only [Bool.and_eq_true, beq_iff_eq] at this
        exact this
    have := renderTuples_len cmd hc ts hts
    simp only [renderGroup, List.length_cons]
    omega

/-- A rendered path is at least twice as long as its segment count. -/
theorem renderPath_len :
    ∀ (gs : List GGroup), gs.all wfGroup = true →
      2 * segCount gs ≤ (renderPath gs).length := by
  intro gs
  induction gs with
  | nil =>
    intro _
    simp [segCount, renderPath]
  | cons g gs' ih =>
    intro hwf
    simp only [List.all_cons, Bool.and_eq_true] at hwf
    have h1 := renderGroup_len g hwf.1
    have h2 := ih hwf.2
    have hrp : renderPath (g :: gs') = renderGroup g ++ renderPath gs' := by
      simp [renderPath]
    rw [hrp]
    simp only [segCount, List.map_cons, List.sum_cons, List.length_append] at h2 ⊢
    omega

/-- A Yields derivation survives one leading separator space. -/
theorem yields_cons_space (cs : List Char) (off : Nat) (st : PState)
    (segs : List Segment) (c2 : Cursor)
    (hst : st = .start ∨ st = .afterClose ∨ ∃ c r, st = .inPath c r)
    (hne : segs ≠ []) (h : Yields ⟨cs, off + 1, st⟩ segs c2) :
    Yields ⟨' ' :: cs, off, st⟩ segs c2 := by
  cases h with
  | refl => exact absurd rfl hne
  | step _ ca cb s l hp hy =>
    refine Yields.step _ _ _ _ _ ?_ hy
    rw [pull_cons_space cs off st hst]
    exact hp

/-- A whole rendered non-empty path yields exactly its group count of
segments. -/
theorem yields_path :
    ∀ (gs' : List GGroup) (g : GGroup) (R : List Char) (off : Nat) (st : PState),
      wfGroup g = true → gs'.all wfGroup = true →
      ((st = .start ∧ g.cmd = .MoveTo) ∨ st = .afterClose ∨ ∃ c r, st = .inPath c r) →
      ∃ segs o2 st2,
        Yields ⟨renderPath (g :: gs') ++ R, off, st⟩ segs ⟨' ' :: R, o2, st2⟩ ∧
        segs.length = segCount (g :: gs') ∧
        (st2 = .afterClose ∨ ∃ c r, st2 = .inPath c r) := by
  intro gs'
  induction gs' with
  | nil =>
    intro g R off st hwfg _ hst
    obtain ⟨cmd, rel, ts⟩ := g
    have hrp : renderPath [⟨cmd, rel, ts⟩] ++ R = renderGroup ⟨cmd, rel, ts⟩ ++ R := by
      simp [renderPath]
    rw [hrp]
    obtain ⟨segs, o2, st2, hY, hlen, hst2⟩ := yields_group cmd rel ts R off st hwfg hst
    exact ⟨segs, o2, st2, hY, by simpa [segCount] using hlen, hst2⟩
  | cons g2 gs'' ih =>
    intro g R off st hwfg hwfall hst
    obtain ⟨cmd, rel, ts⟩ := g
    simp only [List.all_cons, Bool.and_eq_true] at hwfall
    have hrp : renderPath (⟨cmd, rel, ts⟩ :: g2 :: gs'') ++ R =
        renderGroup ⟨cmd, rel, ts⟩ ++ (renderPath (g2 :: gs'') ++ R) := by
      simp [renderPath]
    rw [hrp]
    obtain ⟨segs1, o2, st2, hY1, hlen1, hst2⟩ :=
      yields_group cmd rel ts (renderPath (g2 :: gs'') ++ R) off st hwfg hst
    obtain ⟨segs2, o3, st3, hY2, hlen2, hst3⟩ :=
      ih g2 R (o2 + 1) st2 hwfall.1 hwfall.2 (Or.inr hst2)
    have hne2 : segs2 ≠ [] := by
      intro hh
      rw [hh] at hlen2
      have := groupCount_pos g2 hwfall.1
      simp only [segCount, List.map_cons, List.sum_cons, List.length_nil] at hlen2
      omega
    have hY2' := yields_cons_space _ o2 st2 segs2 _ (Or.inr hst2) hne2 hY2
    refine ⟨segs1 ++ segs2, o3, st3, yields_trans _ _ _ _ _ hY1 hY2', ?_, hst3⟩
    simp only [segCount, List.map_cons, List.sum_cons, List.length_append] at hlen1 hlen2 ⊢
    omega

/-- Parsing a rendered well-formed path yields one segment per complete
argument group, with no error. -/
theorem parsePath_render_complete (gs : List GGroup) (h : wfPath gs = true) :
    (parsePath ⟨renderPath gs⟩).1.length = segCount gs ∧
    (parsePath ⟨renderPath gs⟩).2 = none := by
  rcases gs with _ | ⟨g, gs'⟩
  · exact ⟨rfl, rfl⟩
  · unfold wfPath at h
    simp only [Bool.and_eq_true, beq_iff_eq, List.all_cons] at h
    obtain ⟨hM, hwfg, hwf'⟩ := h
    obtain ⟨segs, o2, st2, hY, hlen, hst2⟩ :=
      yields_path gs' g [] 0 .start hwfg hwf' (Or.inl ⟨rfl, hM⟩)
    rw [List.append_nil] at hY
    have hall : (g :: gs').all wfGroup = true := by
      simp [List.all_cons, hwfg, hwf']
    have hbound := renderPath_len (g :: gs') hall
    have hrun := runF_yields _ _ segs hY ((renderPath (g :: gs')).length + 1) (by omega)
    obtain ⟨cstop, hps⟩ := pull_stop_space o2 st2 (Or.inr hst2)
    have hrest : runF ((renderPath (g :: gs')).length + 1 - segs.length)
        ⟨[' '], o2, st2⟩ = ([], none) :=
      runF_stop _ _ _ hps (by omega)
    have hP : parsePath ⟨renderPath (g :: gs')⟩ = (segs ++ [], none) := by
      show runF ((renderPath (g :: gs')).length + 1) ⟨renderPath (g :: gs'), 0, .start⟩ = _
      rw [hrun, hrest]
    rw [hP]
    simp [hlen]

/-- Parsing a rendered well-formed path followed by a trailing incomplete
group yields exactly the complete groups' segments and then fails with
`UnexpectedEndOfInput`: no segment is emitted for the incomplete group. -/
theorem parsePath_render_partial (g : GGroup) (gs' : List GGroup) (cmd : Cmd)
    (rel : Bool) (pe : List (List Char)) (h : wfPath (g :: gs') = true)
    (hcmd : cmd ≠ .ClosePath) (hwfpe : wfEntriesFrom cmd 0 pe = true)
    (hlt : pe.length < arity cmd) :
    (parsePath ⟨renderPath (g :: gs') ++ cmdChar cmd rel :: ' ' :: renderEntries pe⟩).1.length
        = segCount (g :: gs') ∧
    ∃ e, (parsePath ⟨renderPath (g :: gs') ++ cmdChar cmd rel :: ' ' :: renderEntries pe⟩).2
        = some e ∧ e.kind = .UnexpectedEndOfInput := by
  unfold wfPath at h
  simp only [Bool.and_eq_true, beq_iff_eq, List.all_cons] at h
  obtain ⟨hM, hwfg, hwf'⟩ := h
  obtain ⟨segs, o2, st2, hY, hlen, hst2⟩ :=
    yields_path gs' g (cmdChar cmd rel :: ' ' :: renderEntries pe) 0 .start hwfg hwf'
      (Or.inl ⟨rfl, hM⟩)
  have hall : (g :: gs').all wfGroup = true := by
    simp [List.all_cons, hwfg, hwf']
  have hbound := renderPath_len (g :: gs') hall
  have hch : cmdOfChar (cmdChar cmd rel) = some (cmd, rel) :=
    cmdOfChar_cmdChar cmd rel (fun hc => absurd hc hcmd)
  obtain ⟨oe, hemit⟩ := emitGroup_partial cmd rel pe (o2 + 2) hcmd hlt hwfpe
  have hpe : pull ⟨' ' :: (cmdChar cmd rel :: ' ' :: renderEntries pe), o2, st2⟩ =
      (.err ⟨.UnexpectedEndOfInput, oe⟩,
        ⟨' ' :: renderEntries pe, o2 + 2, .errored ⟨.UnexpectedEndOfInput, oe⟩⟩) := by
    rw [pull_cons_space _ _ _ (Or.inr hst2)]
    rcases hst2 with h2 | ⟨c0, r0, h2⟩ <;> subst h2
    · rw [pull_letter_afterClose _ cmd rel hch _ _, hemit]
    · rw [pull_letter_inPath c0 r0 _ cmd rel hch _ _, hemit]
  set L := (renderPath (g :: gs') ++ cmdChar cmd rel :: ' ' :: renderEntries pe).length with hL
  have hLge : (renderPath (g :: gs')).length ≤ L := by
    rw [hL]
    simp [List.length_append]
  have hrun := runF_yields _ _ segs hY (L + 1) (by omega)
  have hrest : runF (L + 1 - segs.length)
      ⟨' ' :: (cmdChar cmd rel :: ' ' :: renderEntries pe), o2, st2⟩ =
      ([], some ⟨.UnexpectedEndOfInput, oe⟩) :=
    runF_err _ _ _ _ hpe (by omega)
  have hP : parsePath ⟨renderPath (g :: gs') ++ cmdChar cmd rel :: ' ' :: renderEntries pe⟩ =
      (segs ++ [], some ⟨.UnexpectedEndOfInput, oe⟩) := by
    show runF (L + 1) ⟨renderPath (g :: gs') ++ cmdChar cmd rel :: ' ' :: renderEntries pe,
      0, .start⟩ = _
    rw [hrun, hrest]
  rw [hP]
  exact ⟨by simp [hlen], ⟨.UnexpectedEndOfInput, oe⟩, rfl, rfl⟩

/-- C2: for every valid input consisting only of well-formed command/number
groups (the rendered well-formed paths), the number of segments the parser
emits equals the number of complete argument groups present, and no segment
is emitted for a trailing incomplete argument group — the parse of such an
input yields exactly the complete groups' segments and then an
`UnexpectedEndOfInput` error. -/
theorem claim_C2 :
    (∀ gs : List GGroup, wfPath gs = true →
        (parsePath ⟨renderPath gs⟩).1.length = segCount gs ∧
        (parsePath ⟨renderPath gs⟩).2 = none) ∧
    (∀ (g : GGroup) (gs' : List GGroup) (cmd : Cmd) (rel : Bool)
        (pe : List (List Char)),
        wfPath (g :: gs') = true → cmd ≠ .ClosePath →
        wfEntriesFrom cmd 0 pe = true → pe.length < arity cmd →
        (parsePath
            ⟨renderPath (g :: gs') ++ cmdChar cmd rel :: ' ' :: renderEntries pe⟩).1.length
            = segCount (g :: gs') ∧
        ∃ e, (parsePath
            ⟨renderPath (g :: gs') ++ cmdChar cmd rel :: ' ' :: renderEntries pe⟩).2
            = some e ∧ e.kind = .UnexpectedEndOfInput) :=
  ⟨parsePath_render_complete, parsePath_render_partial⟩

/-- Witness for C2 at a concrete rendered path `"M 1 2 Z "` and the same
path with a trailing incomplete `L 3 ` group. -/
theorem claim_C2_witness :
    ((parsePath ⟨renderPath [⟨.MoveTo, false, [[['1'], ['2']]]⟩, ⟨.ClosePath, false, []⟩]⟩).1.length
        = segCount [⟨.MoveTo, false, [[['1'], ['2']]]⟩, ⟨.ClosePath, false, []⟩] ∧
      (parsePath ⟨renderPath [⟨.MoveTo, false, [[['1'], ['2']]]⟩, ⟨.ClosePath, false, []⟩]⟩).2
        = none) ∧
    ((parsePath ⟨renderPath [⟨.MoveTo, false, [[['1'], ['2']]]⟩] ++
          cmdChar .LineTo false :: ' ' :: renderEntries [['3']]⟩).1.length
        = segCount [⟨.MoveTo, false, [[['1'], ['2']]]⟩] ∧
      ∃ e, (parsePath ⟨renderPath [⟨.MoveTo, false, [[['1'], ['2']]]⟩] ++
          cmdChar .LineTo false :: ' ' :: renderEntries [['3']]⟩).2
        = some e ∧ e.kind = .UnexpectedEndOfInput) := by
  constructor
  · exact claim_C2.1 [⟨.MoveTo, false, [[['1'], ['2']]]⟩, ⟨.ClosePath, false, []⟩] (by decide)
  · exact claim_C2.2 ⟨.MoveTo, false, [[['1'], ['2']]]⟩ [] .LineTo false [['3']]
      (by decide) (by decide) (by decide) (by decide)

/-- C1: parsing `"M0,0 10,10 20,20"` yields exactly three segments, all of
them absolute `MoveTo` — the implicit-repetition argument groups after `M`
keep the segment kind of the initiating command letter. -/
theorem claim_C1 :
    parsePath "M0,0 10,10 20,20" =
      ([⟨.MoveTo, false, [0, 0]⟩, ⟨.MoveTo, false, [10, 10]⟩,
        ⟨.MoveTo, false, [20, 20]⟩], none) ∧
    (parsePath "M0,0 10,10 20,20").1.length = 3 ∧
    (parsePath "M0,0 10,10 20,20").1.map segKind = [.MoveTo, .MoveTo, .MoveTo] := by
  refine ⟨by decide, by decide, by decide⟩

/-- C3: parsing the malformed input `"M10,10 X5,5"` yields exactly one
segment — an absolute `MoveTo` — and then fails with `UnexpectedCharacter`
at byte offset 7, the offset of the character `X`. -/
theorem claim_C3 :
    parsePath "M10,10 X5,5" =
      ([⟨.MoveTo, false, [10, 10]⟩], some ⟨.UnexpectedCharacter, 7⟩) ∧
    "M10,10 X5,5".data[7]? = some 'X' := by
  refine ⟨by decide, by decide⟩

/-- C4: once the parser is in the `Errored` state, a pull yields no further
segment, and every emitted segment carries a completely filled argument
group — its argument count equals the arity of its command. -/
theorem claim_C4 (c c2 : Cursor) (e : PErr) (s : Segment) :
    (c.state = .errored e → pull c = (.stop, c)) ∧
    (pull c = (.seg s, c2) → s.args.length = arity s.cmd) :=
  ⟨pull_stop_of_errored c e, pull_seg_arity c s c2⟩

/-- Witness for C4 at concrete inputs: an errored cursor yields no segment,
and a concrete emitted segment has a full argument group. -/
theorem claim_C4_witness :
    pull ⟨['x'], 5, .errored ⟨.UnexpectedCharacter, 3⟩⟩ =
      (.stop, ⟨['x'], 5, .errored ⟨.UnexpectedCharacter, 3⟩⟩) ∧
    (Segment.mk .ClosePath false []).args.length =
      arity (Segment.mk .ClosePath false []).cmd := by
  constructor
  · exact (claim_C4 ⟨['x'], 5, .errored ⟨.UnexpectedCharacter, 3⟩⟩
      ⟨[], 0, .done⟩ ⟨.UnexpectedCharacter, 3⟩ ⟨.ClosePath, false, []⟩).1 rfl
  · exact (claim_C4 ⟨"Z".data, 0, .afterClose⟩ ⟨[], 1, .afterClose⟩
      ⟨.UnexpectedCharacter, 3⟩ ⟨.ClosePath, false, []⟩).2 (by decide)

/-- C5: the empty input parses to an empty segment sequence with no error,
and so does any input consisting only of whitespace. -/
theorem claim_C5 :
    parsePath "" = ([], none) ∧
    ∀ s : String, (∀ c ∈ s.data, isWsp c = true) → parsePath s = ([], none) := by
  constructor
  · decide
  · intro s h
    have hsk : skipSeparators s.data 0 = ([], s.data.length) := by
      unfold skipSeparators
      rw [skipWsp_all s.data h 0]
      simp
    have hp : pull ⟨s.data, 0, .start⟩ = (.stop, ⟨[], s.data.length, .done⟩) := by
      unfold pull
      rw [hsk]
    unfold parsePath initCursor
    rw [runF, hp]

/-- Witness for C5 at a concrete whitespace-only input. -/
theorem claim_C5_witness : parsePath " \t " = ([], none) :=
  claim_C5.2 " \t " (by decide)

/-- C6 as stated is false: for an input with leading whitespace before the
number, the error offset is the offset of the digit, not 0. -/
theorem claim_C6_counterexample :
    (parsePath " 5,5").2 = some ⟨.UnexpectedCharacter, 1⟩ ∧
    ¬ ((parsePath " 5,5").2 = some ⟨.UnexpectedCharacter, 0⟩) := by
  refine ⟨by decide, by decide⟩

/-- C6 (amended): an input whose first character after leading separators
begins a number — a digit, sign or dot — rather than a command letter fails
with `UnexpectedCharacter` at the byte offset of that character (0 when the
number starts the input), yielding no segments. -/
theorem claim_C6 (s : String) (c : Char) (r : List Char) (o : Nat)
    (hsk : skipSeparators s.data 0 = (c :: r, o)) (hd : isNumberStart c = true) :
    parsePath s = ([], some ⟨.UnexpectedCharacter, o⟩) := by
  have hc := cmdOfChar_numberStart c hd
  have hp : pull ⟨s.data, 0, .start⟩ =
      (.err ⟨.UnexpectedCharacter, o⟩,
        ⟨c :: r, o, .errored ⟨.UnexpectedCharacter, o⟩⟩) := by
    unfold pull
    rw [hsk]
    dsimp only
    rw [hc]
  unfold parsePath initCursor
  rw [runF, hp]

/-- Witness for C6 at concrete digit-, sign- and dot-initiated inputs. -/
theorem claim_C6_witness :
    parsePath "5,5" = ([], some ⟨.UnexpectedCharacter, 0⟩) ∧
    parsePath "-5,5" = ([], some ⟨.UnexpectedCharacter, 0⟩) ∧
    parsePath " .5" = ([], some ⟨.UnexpectedCharacter, 1⟩) :=
  ⟨claim_C6 "5,5" '5' [',', '5'] 0 (by decide) (by decide),
    claim_C6 "-5,5" '-' ['5', ',', '5'] 0 (by decide) (by decide),
    claim_C6 " .5" '.' ['5'] 1 (by decide) (by decide)⟩

/-- C7: parsing `"M0,0 Z L5,5"` yields `MoveTo`, `ClosePath`, `LineTo` in
that order, and the `Close` segment carries no numeric arguments. -/
theorem claim_C7 :
    parsePath "M0,0 Z L5,5" =
      ([⟨.MoveTo, false, [0, 0]⟩, ⟨.ClosePath, false, []⟩,
        ⟨.LineTo, false, [5, 5]⟩], none) := by
  decide

/-- C9: for every input that parses without error and emits at least one
segment, the first emitted segment is a `MoveTo`. -/
theorem claim_C9 (s : String) (seg0 : Segment) (rest : List Segment)
    (h : parsePath s = (seg0 :: rest, none)) : seg0.cmd = .MoveTo := by
  unfold parsePath initCursor at h
  rw [runF] at h
  rcases hp : pull ⟨s.data, 0, .start⟩ with ⟨pr, c2⟩
  rw [hp] at h
  cases pr with
  | stop => simp at h
  | err e => simp at h
  | seg s0 =>
    dsimp only at h
    rcases hr : runF s.length c2 with ⟨l, er⟩
    rw [hr] at h
    simp only [Prod.mk.injEq, List.cons.injEq] at h
    rw [← h.1.1]
    exact pull_start_moveTo ⟨s.data, 0, .start⟩ s0 c2 rfl hp

/-- Witness for C9 at the concrete input `"M1,2"`. -/
theorem claim_C9_witness : (Segment.mk .MoveTo false [1, 2]).cmd = .MoveTo :=
  claim_C9 "M1,2" ⟨.MoveTo, false, [1, 2]⟩ [] (by decide)

set_option maxRecDepth 100000 in
/-- C10 as stated is false: the hard-coded path in `main` contains ten
command groups (one M, five Q, three C, one Z), so ten segments are
collected, not eleven. -/
theorem claim_C10_counterexample :
    (parsePath kurboMainPath).1.length = 10 ∧
    ¬ ((parsePath kurboMainPath).1.length = 11) := by
  refine ⟨by decide, by decide⟩


set_option maxRecDepth 100000 in
/-- C10 (amended): parsing the hard-coded path of `main` yields no error —
every element of the sequence is an `Ok` segment, so each `unwrap` succeeds
and `main` terminates normally — collecting exactly ten segments, the first
a `MoveTo` and the last a `ClosePath`. -/
theorem claim_C10 :
    (parsePath kurboMainPath).2 = none ∧
    (parsePath kurboMainPath).1.length = 10 ∧
    (parsePath kurboMainPath).1.map segKind =
      [.MoveTo, .QuadTo, .QuadTo, .QuadTo, .CurveTo, .CurveTo,
       .QuadTo, .QuadTo, .CurveTo, .ClosePath] := by
  refine ⟨by decide, by decide, by decide⟩

end SvgPath
